import Mathlib

/-! PSTL internal utilities (`libcxx/include/__pstl/internal/utils.h`).

A shallow embedding of the helpers of `__pstl::__internal` and the properties
their users rely on.

* Iterators into one sequence are positions of a type `ι` carrying the
  iterator comparison `<`; dereferencing is a function `deref : ι → α`.
* A comparator is a pure function `α → α → Bool`.
* A callable with effects is a state transformer `σ → Outcome ε α σ`: it
  returns a value, throws an exception, or ends the process.
-/

namespace pstl
namespace internal

/-! ## Outcomes of effectful callables -/

/-- The ways a call can end: normal return of `v` in state `s`, an exception `e`
thrown in state `s`, or the end of the process through `std::terminate`. -/
inductive Outcome (ε α σ : Type) where
  | returns (v : α) (s : σ) : Outcome ε α σ
  | throws (e : ε) (s : σ) : Outcome ε α σ
  | terminated : Outcome ε α σ
  deriving DecidableEq

/-- A callable `_Fp` invoked with no arguments: reads and updates the state. -/
abbrev Callable (ε α σ : Type) := σ → Outcome ε α σ

/-- Instrumentation: `counted f` runs `f` on the first component of the state and
adds one to the call counter kept in the second component. -/
def counted {ε α σ : Type} (f : Callable ε α σ) : Callable ε α (σ × Nat) :=
  fun st =>
    match f st.1 with
    | .returns v s => .returns v (s, st.2 + 1)
    | .throws e s => .throws e (s, st.2 + 1)
    | .terminated => .terminated

/-! ## `__except_handler` -/

/-- Embedding of `__except_handler` (utils.h, lines 21-34) in the build with exceptions
(`_LIBCPP_HAS_NO_EXCEPTIONS` not defined). `isBadAlloc e` says that the handler
`catch (const std::bad_alloc&)` matches `e`. -/
def __except_handler {ε α σ : Type} (isBadAlloc : ε → Bool) (__f : Callable ε α σ) :
    Callable ε α σ :=
  fun s =>
    match __f s with
    | .returns v s1 => .returns v s1
    | .throws e s1 => if isBadAlloc e then .throws e s1 else .terminated
    | .terminated => .terminated

/-- Embedding of `__except_handler` in the build where `_LIBCPP_HAS_NO_EXCEPTIONS` is
defined: the body is `return __f();` alone. -/
def __except_handler_no_exceptions {ε α σ : Type} (__f : Callable ε α σ) : Callable ε α σ :=
  fun s => __f s

/-! ## `__invoke_if`, `__invoke_if_not` -/

/-- The statement `__f();` whose value is discarded. -/
def callDiscard {ε α σ : Type} (__f : Callable ε α σ) : Callable ε Unit σ :=
  fun s =>
    match __f s with
    | .returns _ s1 => .returns () s1
    | .throws e s1 => .throws e s1
    | .terminated => .terminated

/-- Embedding of the two overloads of `__invoke_if` (utils.h, lines 36-42); the tag
`std::true_type` / `std::false_type` is the boolean. -/
def __invoke_if {ε α σ : Type} (tag : Bool) (__f : Callable ε α σ) : Callable ε Unit σ :=
  match tag with
  | true => callDiscard __f
  | false => fun s => .returns () s

/-- Embedding of the two overloads of `__invoke_if_not` (utils.h, lines 44-50). -/
def __invoke_if_not {ε α σ : Type} (tag : Bool) (__f : Callable ε α σ) : Callable ε Unit σ :=
  match tag with
  | false => callDiscard __f
  | true => fun s => .returns () s

/-! ## `__invoke_if_else` -/

/-- Embedding of the two overloads of `__invoke_if_else` (utils.h, lines 52-60): with
`std::true_type` the result is that of `__f1()`, of type `decltype(__f1())`; with
`std::false_type` it is that of `__f2()`, of type `decltype(__f2())`. The callable not
chosen is an unnamed parameter and is not used. -/
def __invoke_if_else {ε α β σ : Type} :
    (tag : Bool) → Callable ε α σ → Callable ε β σ → Callable ε (cond tag α β) σ
  | true, __f1, _ => fun s => __f1 s
  | false, _, __f2 => fun s => __f2 s

/-- Instrumentation for two callables sharing a state: `countedFst f` runs `f` and adds
one to the first of two call counters. -/
def countedFst {ε α σ : Type} (f : Callable ε α σ) : Callable ε α (σ × Nat × Nat) :=
  fun st =>
    match f st.1 with
    | .returns v s => .returns v (s, st.2.1 + 1, st.2.2)
    | .throws e s => .throws e (s, st.2.1 + 1, st.2.2)
    | .terminated => .terminated

/-- Instrumentation for two callables sharing a state: `countedSnd f` runs `f` and adds
one to the second of two call counters. -/
def countedSnd {ε α σ : Type} (f : Callable ε α σ) : Callable ε α (σ × Nat × Nat) :=
  fun st =>
    match f st.1 with
    | .returns v s => .returns v (s, st.2.1, st.2.2 + 1)
    | .throws e s => .throws e (s, st.2.1, st.2.2 + 1)
    | .terminated => .terminated

/-! ## Predicate adaptors -/

/-- Embedding of `struct __no_op` (utils.h, lines 62-68): it has no data members. -/
structure __no_op where
  deriving DecidableEq

/-- The call operator of `__no_op`: `return std::forward<_Tp>(__a);`. -/
def __no_op.call {α : Type} (_self : __no_op) (__a : α) : α := __a

/-- Embedding of `class __reorder_pred` (utils.h, lines 70-81): it stores the predicate
`_M_pred`, which takes its arguments in the order (second, first). -/
structure __reorder_pred (α β : Type) where
  _M_pred : β → α → Bool

/-- The call operator of `__reorder_pred`: `return _M_pred(__b, __a);`. -/
def __reorder_pred.call {α β : Type} (self : __reorder_pred α β) (__a : α) (__b : β) :
    Bool :=
  self._M_pred __b __a

/-- Embedding of `class __equal_value_by_pred` (utils.h, lines 83-97): it stores the
value `_M_value` and the predicate `_M_pred`. -/
structure __equal_value_by_pred (α β : Type) where
  _M_value : α
  _M_pred : β → α → Bool

/-- The call operator of `__equal_value_by_pred`: `return _M_pred(__arg, _M_value);`. -/
def __equal_value_by_pred.call {α β : Type} (self : __equal_value_by_pred α β)
    (__arg : β) : Bool :=
  self._M_pred __arg self._M_value

/-- Embedding of `class __equal_value` (utils.h, lines 99-111): it stores `_M_value`. -/
structure __equal_value (α : Type) where
  _M_value : α

/-- The call operator of `__equal_value`: `return __arg == _M_value;`. The operator
`==` between the argument type and the value type is the parameter `eq`. -/
def __equal_value.call {α β : Type} (eq : β → α → Bool) (self : __equal_value α)
    (__arg : β) : Bool :=
  eq __arg self._M_value

/-- Embedding of `class __not_equal_value` (utils.h, lines 113-125): it stores
`_M_value`. -/
structure __not_equal_value (α : Type) where
  _M_value : α

/-- The call operator of `__not_equal_value`: `return !(__arg == _M_value);`. -/
def __not_equal_value.call {α β : Type} (eq : β → α → Bool) (self : __not_equal_value α)
    (__arg : β) : Bool :=
  !(eq __arg self._M_value)

/-! ## `__cmp_iterators_by_values` -/

/-- Embedding of `__cmp_iterators_by_values` (utils.h, lines 127-135). -/
def __cmp_iterators_by_values {ι α : Type} [LT ι] [DecidableRel (fun (x y : ι) => x < y)]
    (deref : ι → α) (__a __b : ι) (__comp : α → α → Bool) : ι :=
  if __a < __b then
    if __comp (deref __b) (deref __a) then __b else __a
  else
    if __comp (deref __a) (deref __b) then __a else __b

/-! ## Sequential scan and comparator requirements -/

/-- The requirement on `_Compare` ([alg.sorting]): `comp` is irreflexive and transitive,
and equivalence (`comp x y` and `comp y x` both false) is transitive. -/
structure StrictWeakOrdering {α : Type} (comp : α → α → Bool) : Prop where
  irrefl : ∀ x, comp x x = false
  trans : ∀ x y z, comp x y = true → comp y z = true → comp x z = true
  equiv_trans : ∀ x y z, comp x y = false → comp y x = false →
    comp y z = false → comp z y = false → comp x z = false ∧ comp z x = false

/-- One step of the left-to-right scan, in the words of the specification: at position
`p`, replace `best` by `p` exactly when `comp (value at p) (value at best)` holds. -/
def scanStep {α : Type} (deref : Nat → α) (comp : α → α → Bool) (best p : Nat) : Nat :=
  if comp (deref p) (deref best) then p else best

/-- The scan continued from `best` over the `n` positions `p, p + 1, ..., p + n - 1`. -/
def scanFrom {α : Type} (deref : Nat → α) (comp : α → α → Bool) : Nat → Nat → Nat → Nat
  | best, _, 0 => best
  | best, p, n + 1 => scanFrom deref comp (scanStep deref comp best p) (p + 1) n

/-- The single-threaded left-to-right scan of the specification over the range of
positions `[first, last)`: start with the first position as best, then visit each later
position in order. -/
def sequential_scan {α : Type} (deref : Nat → α) (comp : α → α → Bool)
    (first last : Nat) : Nat :=
  scanFrom deref comp first (first + 1) (last - (first + 1))

/-- The position `m` is the first best one of the range `[first, last)`: it lies in the
range, no value of the range is preferred to its value, and its value is preferred to
every value before it. -/
def FirstBest {α : Type} (deref : Nat → α) (comp : α → α → Bool)
    (first last m : Nat) : Prop :=
  first ≤ m ∧ m < last ∧
  (∀ q, first ≤ q → q < last → comp (deref q) (deref m) = false) ∧
  (∀ q, first ≤ q → q < m → comp (deref m) (deref q) = true)

/-- The position `a` is at least as good as the position `b`: its value is preferred, or
the value at `b` is not preferred and `a` is not after `b`. -/
def prefers {ι α : Type} [LE ι] [DecidableRel (fun (x y : ι) => x ≤ y)]
    (deref : ι → α) (comp : α → α → Bool) (a b : ι) : Bool :=
  comp (deref a) (deref b) || (!comp (deref b) (deref a) && decide (a ≤ b))

/-! ## Concrete data used in the examples -/

/-- The comparator `std::less<int>`: `less x y` is `x < y`. -/
def less (x y : Int) : Bool := decide (x < y)

/-- Dereferencing positions of a sequence of `int` stored from position `0` on. -/
def derefSeq (xs : List Int) (i : Nat) : Int := xs.getD i 0

/-- A small universe of exceptions for the examples: `std::bad_alloc`, its derived class
`std::bad_array_new_length`, and two exceptions outside that hierarchy. -/
inductive StdException where
  | bad_alloc
  | bad_array_new_length
  | runtime_error
  | out_of_range
  deriving DecidableEq

/-- Whether the handler `catch (const std::bad_alloc&)` matches the exception. -/
def StdException.isBadAlloc : StdException → Bool
  | .bad_alloc => true
  | .bad_array_new_length => true
  | .runtime_error => false
  | .out_of_range => false

/-- A callable that stores `7` in the state and returns `42`. -/
def work42 : Callable StdException Int Int := fun _ => .returns 42 7

/-- A callable that adds one to the state and then throws the given exception. -/
def workThrow (e : StdException) : Callable StdException Int Int := fun s => .throws e (s + 1)

/-! ## Sequential consistency of the merge -/

/-- In a strict weak ordering, `comp x z` forces `comp x y` or `comp y z`. -/
theorem StrictWeakOrdering.neg_trans {α : Type} {comp : α → α → Bool}
    (h : StrictWeakOrdering comp) (x y z : α) (hxz : comp x z = true) :
    comp x y = true ∨ comp y z = true := by
  by_contra hcon
  push_neg at hcon
  obtain ⟨hxy, hyz⟩ := hcon
  have hxy0 : comp x y = false := by simpa using hxy
  have hyz0 : comp y z = false := by simpa using hyz
  have hyx0 : comp y x = false := by
    cases hyx : comp y x with
    | false => rfl
    | true => exact absurd (h.trans y x z hyx hxz) hyz
  have hzy0 : comp z y = false := by
    cases hzy : comp z y with
    | false => rfl
    | true => exact absurd (h.trans x z y hxz hzy) hxy
  have := (h.equiv_trans x y z hxy0 hyx0 hyz0 hzy0).1
  rw [hxz] at this
  exact Bool.noConfusion this

/-- Less-than on `int` is a strict weak ordering. -/
theorem less_strictWeakOrdering : StrictWeakOrdering less where
  irrefl := by intro x; simp [less]
  trans := by
    intro x y z hxy hyz
    simp only [less, decide_eq_true_eq] at *
    omega
  equiv_trans := by
    intro x y z h1 h2 h3 h4
    simp only [less, decide_eq_false_iff_not, not_lt] at *
    constructor <;> omega

/-- The first position of a range is the first best one of the range holding it alone. -/
theorem firstBest_single {α : Type} {comp : α → α → Bool} (h : StrictWeakOrdering comp)
    (deref : Nat → α) (first : Nat) : FirstBest deref comp first (first + 1) first := by
  refine ⟨le_refl _, Nat.lt_succ_self _, ?_, ?_⟩
  · intro q hq1 hq2
    have : q = first := by omega
    subst this
    exact h.irrefl _
  · intro q hq1 hq2
    omega

/-- One scan step keeps the invariant: the best position of `[first, p)` becomes the
best position of `[first, p + 1)`. -/
theorem firstBest_step {α : Type} {comp : α → α → Bool} (h : StrictWeakOrdering comp)
    (deref : Nat → α) (first p best : Nat) (hb : FirstBest deref comp first p best) :
    FirstBest deref comp first (p + 1) (scanStep deref comp best p) := by
  obtain ⟨h1, h2, h3, h4⟩ := hb
  unfold scanStep
  cases hc : comp (deref p) (deref best) with
  | true =>
    simp only [if_true]
    refine ⟨by omega, by omega, ?_, ?_⟩
    · intro q hq1 hq2
      rcases Nat.lt_succ_iff_lt_or_eq.mp hq2 with hlt | heq
      · cases hqp : comp (deref q) (deref p) with
        | false => rfl
        | true =>
          have := h.trans _ _ _ hqp hc
          rw [h3 q hq1 hlt] at this
          exact Bool.noConfusion this
      · subst heq
        exact h.irrefl _
    · intro q hq1 hq2
      rcases h.neg_trans (deref p) (deref q) (deref best) hc with hpq | hqb
      · exact hpq
      · rw [h3 q hq1 hq2] at hqb
        exact Bool.noConfusion hqb
  | false =>
    simp only [Bool.false_eq_true, if_false]
    refine ⟨h1, by omega, ?_, h4⟩
    intro q hq1 hq2
    rcases Nat.lt_succ_iff_lt_or_eq.mp hq2 with hlt | heq
    · exact h3 q hq1 hlt
    · subst heq
      exact hc

/-- The scan loop keeps the invariant over all the positions it visits. -/
theorem firstBest_scanFrom {α : Type} {comp : α → α → Bool} (h : StrictWeakOrdering comp)
    (deref : Nat → α) (first : Nat) (n : Nat) :
    ∀ (best p : Nat), FirstBest deref comp first p best →
      FirstBest deref comp first (p + n) (scanFrom deref comp best p n) := by
  induction n with
  | zero => intro best p hb; simpa [scanFrom] using hb
  | succ n ih =>
    intro best p hb
    have := ih _ _ (firstBest_step h deref first p best hb)
    have e : p + 1 + n = p + (n + 1) := by omega
    rw [e] at this
    simpa [scanFrom] using this

/-- The sequential scan of a non-empty range selects its first best position. -/
theorem firstBest_sequential_scan {α : Type} {comp : α → α → Bool}
    (h : StrictWeakOrdering comp) (deref : Nat → α) (first last : Nat) (hfl : first < last) :
    FirstBest deref comp first last (sequential_scan deref comp first last) := by
  have := firstBest_scanFrom h deref first (last - (first + 1)) first (first + 1)
    (firstBest_single h deref first)
  have e : first + 1 + (last - (first + 1)) = last := by omega
  rw [e] at this
  exact this

/-- A range has at most one first best position. -/
theorem firstBest_unique {α : Type} {comp : α → α → Bool} (deref : Nat → α)
    (first last m1 m2 : Nat) (h1 : FirstBest deref comp first last m1)
    (h2 : FirstBest deref comp first last m2) : m1 = m2 := by
  obtain ⟨a1, a2, a3, a4⟩ := h1
  obtain ⟨b1, b2, b3, b4⟩ := h2
  rcases lt_trichotomy m1 m2 with hlt | heq | hgt
  · have := b4 m1 a1 hlt
    rw [a3 m2 b1 b2] at this
    exact Bool.noConfusion this
  · exact heq
  · have := a4 m2 b1 hgt
    rw [b3 m1 a1 a2] at this
    exact Bool.noConfusion this

/-- Merging the first best positions of two adjacent ranges gives the first best position
of their union. -/
theorem firstBest_merge {α : Type} {comp : α → α → Bool} (h : StrictWeakOrdering comp)
    (deref : Nat → α) (first mid last a b : Nat)
    (ha : FirstBest deref comp first mid a) (hb : FirstBest deref comp mid last b) :
    FirstBest deref comp first last (__cmp_iterators_by_values deref a b comp) := by
  obtain ⟨a1, a2, a3, a4⟩ := ha
  obtain ⟨b1, b2, b3, b4⟩ := hb
  have hab : a < b := by omega
  unfold __cmp_iterators_by_values
  rw [if_pos hab]
  cases hc : comp (deref b) (deref a) with
  | true =>
    simp only [if_true]
    refine ⟨by omega, b2, ?_, ?_⟩
    · intro q hq1 hq2
      rcases Nat.lt_or_ge q mid with hq | hq
      · cases hqb : comp (deref q) (deref b) with
        | false => rfl
        | true =>
          have := h.trans _ _ _ hqb hc
          rw [a3 q hq1 hq] at this
          exact Bool.noConfusion this
      · exact b3 q hq hq2
    · intro q hq1 hq2
      rcases Nat.lt_or_ge q mid with hq | hq
      · rcases h.neg_trans (deref b) (deref q) (deref a) hc with hbq | hqa
        · exact hbq
        · rw [a3 q hq1 hq] at hqa
          exact Bool.noConfusion hqa
      · exact b4 q hq hq2
  | false =>
    simp only [Bool.false_eq_true, if_false]
    refine ⟨a1, by omega, ?_, a4⟩
    intro q hq1 hq2
    rcases Nat.lt_or_ge q mid with hq | hq
    · exact a3 q hq1 hq
    · cases hqa : comp (deref q) (deref a) with
      | false => rfl
      | true =>
        rcases h.neg_trans (deref q) (deref b) (deref a) hqa with hqb | hba
        · rw [b3 q hq hq2] at hqb
          exact Bool.noConfusion hqb
        · rw [hc] at hba
          exact Bool.noConfusion hba

/-- C1: sequential consistency of the merge. For a range `[first, last)` split at `mid`
into two non-empty contiguous sub-ranges and a strict weak ordering `comp`, merging the
positions the left-to-right scan selects in `[first, mid)` and in `[mid, last)` gives the
position the same scan selects over `[first, last)`. -/
theorem cmp_iterators_by_values_sequential_consistency {α : Type} (deref : Nat → α)
    (comp : α → α → Bool) (hcomp : StrictWeakOrdering comp) (first mid last : Nat)
    (hleft : first < mid) (hright : mid < last) :
    __cmp_iterators_by_values deref (sequential_scan deref comp first mid)
        (sequential_scan deref comp mid last) comp =
      sequential_scan deref comp first last :=
  firstBest_unique deref first last _ _
    (firstBest_merge hcomp deref first mid last _ _
      (firstBest_sequential_scan hcomp deref first mid hleft)
      (firstBest_sequential_scan hcomp deref mid last hright))
    (firstBest_sequential_scan hcomp deref first last (by omega))

/-- Witness of C1: the sequence `[10, 5, 20, 5, 7]` split after its second element, with
less-than. -/
theorem cmp_iterators_by_values_sequential_consistency_witness :
    StrictWeakOrdering less ∧ 0 < 2 ∧ 2 < 5 ∧
    __cmp_iterators_by_values (derefSeq [10, 5, 20, 5, 7])
        (sequential_scan (derefSeq [10, 5, 20, 5, 7]) less 0 2)
        (sequential_scan (derefSeq [10, 5, 20, 5, 7]) less 2 5) less =
      sequential_scan (derefSeq [10, 5, 20, 5, 7]) less 0 5 :=
  ⟨less_strictWeakOrdering, by decide, by decide,
   cmp_iterators_by_values_sequential_consistency (derefSeq [10, 5, 20, 5, 7]) less
     less_strictWeakOrdering 0 2 5 (by decide) (by decide)⟩

/-! ## Properties of `__cmp_iterators_by_values` -/

/-- C2: for distinct positions `a`, `b` the comparator is applied to (value at the later
position, value at the earlier position); the later position is returned when that call
is true and the earlier one otherwise, whichever argument is the earlier one. -/
theorem cmp_iterators_by_values_later_earlier {ι α : Type} [LinearOrder ι]
    (deref : ι → α) (comp : α → α → Bool) (a b : ι) (hab : a ≠ b) :
    __cmp_iterators_by_values deref a b comp =
      if comp (deref (max a b)) (deref (min a b)) then max a b else min a b := by
  unfold __cmp_iterators_by_values
  rcases lt_or_gt_of_ne hab with h | h
  · rw [if_pos h, max_eq_right h.le, min_eq_left h.le]
  · rw [if_neg (not_lt_of_gt h), max_eq_left h.le, min_eq_right h.le]

/-- Witness of C2 on the sequence `[10, 20, 20, 5]` at positions `3` and `0`. -/
theorem cmp_iterators_by_values_later_earlier_witness :
    (3 : Nat) ≠ 0 ∧
    __cmp_iterators_by_values (derefSeq [10, 20, 20, 5]) 3 0 less =
      if less (derefSeq [10, 20, 20, 5] (max 3 0)) (derefSeq [10, 20, 20, 5] (min 3 0))
      then max 3 0 else min 3 0 :=
  ⟨by decide,
   cmp_iterators_by_values_later_earlier (derefSeq [10, 20, 20, 5]) less 3 0 (by decide)⟩

/-- C3: left-biased tie-break. For distinct positions whose values the comparator judges
equivalent (neither `comp va vb` nor `comp vb va`), the earlier position is returned. -/
theorem cmp_iterators_by_values_tie_earlier {ι α : Type} [LinearOrder ι]
    (deref : ι → α) (comp : α → α → Bool) (a b : ι) (hab : a ≠ b)
    (h1 : comp (deref a) (deref b) = false) (h2 : comp (deref b) (deref a) = false) :
    __cmp_iterators_by_values deref a b comp = min a b := by
  unfold __cmp_iterators_by_values
  rcases lt_or_gt_of_ne hab with h | h
  · simp [h, h2, min_eq_left h.le]
  · simp [not_lt_of_gt h, h1, min_eq_right h.le]

/-- Witness of C3: the sequence `[10, 20, 20, 5]`, positions `1` and `2`, comparator
less-than; position `1` is returned. -/
theorem cmp_iterators_by_values_tie_earlier_witness :
    (1 : Nat) ≠ 2 ∧
    less (derefSeq [10, 20, 20, 5] 1) (derefSeq [10, 20, 20, 5] 2) = false ∧
    less (derefSeq [10, 20, 20, 5] 2) (derefSeq [10, 20, 20, 5] 1) = false ∧
    __cmp_iterators_by_values (derefSeq [10, 20, 20, 5]) 1 2 less = 1 :=
  ⟨by decide, by decide, by decide,
   cmp_iterators_by_values_tie_earlier (derefSeq [10, 20, 20, 5]) less 1 2
     (by decide) (by decide) (by decide)⟩

/-- C4 as stated fails: on `[20, 30]` with positions `0` and `1` and less-than the result
is not position `1`. -/
theorem cmp_iterators_by_values_20_30_not_later :
    __cmp_iterators_by_values (derefSeq [20, 30]) 0 1 less ≠ 1 := by
  decide

/-- C4 (amended): on `[20, 30]` with positions `0` and `1` and less-than, the call
`less 30 20` is false and position `0`, the earlier one, is returned. -/
theorem cmp_iterators_by_values_20_30_earlier :
    less (derefSeq [20, 30] 1) (derefSeq [20, 30] 0) = false ∧
    __cmp_iterators_by_values (derefSeq [20, 30]) 0 1 less = 0 := by
  decide

/-- C5: swap invariance. For all positions `a`, `b` (equal or distinct) and every
comparator, the result does not depend on the order of the two position arguments. -/
theorem cmp_iterators_by_values_swap {ι α : Type} [LinearOrder ι]
    (deref : ι → α) (comp : α → α → Bool) (a b : ι) :
    __cmp_iterators_by_values deref a b comp = __cmp_iterators_by_values deref b a comp := by
  unfold __cmp_iterators_by_values
  rcases lt_trichotomy a b with h | h | h
  · rw [if_pos h, if_neg (not_lt_of_gt h)]
  · subst h
    rw [if_neg (lt_irrefl a)]
  · rw [if_neg (not_lt_of_gt h), if_pos h]

/-- C6: the result is one of the two positions passed in, for every comparator and every
iterator comparison. -/
theorem cmp_iterators_by_values_mem {ι α : Type} [LT ι]
    [DecidableRel (fun (x y : ι) => x < y)]
    (deref : ι → α) (comp : α → α → Bool) (a b : ι) :
    __cmp_iterators_by_values deref a b comp = a ∨
      __cmp_iterators_by_values deref a b comp = b := by
  unfold __cmp_iterators_by_values
  split <;> split <;> simp

/-! ## Properties of `__except_handler` -/

/-- C7: when `work` ends with an exception that is not an allocation failure, the handler
does not pass it on: the outcome is the end of the process, and no exception reaches the
caller. -/
theorem except_handler_other_failure_terminates {ε α σ : Type} (isBadAlloc : ε → Bool)
    (work : Callable ε α σ) (s s1 : σ) (e : ε)
    (hw : work s = .throws e s1) (he : isBadAlloc e = false) :
    __except_handler isBadAlloc work s = .terminated ∧
      ∀ e2 s2, __except_handler isBadAlloc work s ≠ .throws e2 s2 := by
  have hr : __except_handler isBadAlloc work s = .terminated := by
    simp [__except_handler, hw, he]
  refine ⟨hr, ?_⟩
  intro e2 s2
  rw [hr]
  exact fun hcon => Outcome.noConfusion hcon

/-- Witness of C7: a callable throwing `std::runtime_error`. -/
theorem except_handler_other_failure_terminates_witness :
    workThrow .runtime_error 0 = .throws .runtime_error 1 ∧
    StdException.isBadAlloc .runtime_error = false ∧
    (__except_handler StdException.isBadAlloc (workThrow .runtime_error) 0 = .terminated ∧
      ∀ e2 s2, __except_handler StdException.isBadAlloc (workThrow .runtime_error) 0 ≠
        .throws e2 s2) :=
  ⟨by decide, by decide,
   except_handler_other_failure_terminates StdException.isBadAlloc
     (workThrow .runtime_error) 0 1 .runtime_error (by decide) (by decide)⟩

/-- C8: when `work` ends with an allocation failure, the handler ends with that same
exception, in the state `work` left. -/
theorem except_handler_bad_alloc_propagates {ε α σ : Type} (isBadAlloc : ε → Bool)
    (work : Callable ε α σ) (s s1 : σ) (e : ε)
    (hw : work s = .throws e s1) (he : isBadAlloc e = true) :
    __except_handler isBadAlloc work s = .throws e s1 := by
  simp [__except_handler, hw, he]

/-- Witness of C8: a callable throwing `std::bad_alloc`. -/
theorem except_handler_bad_alloc_propagates_witness :
    workThrow .bad_alloc 0 = .throws .bad_alloc 1 ∧
    StdException.isBadAlloc .bad_alloc = true ∧
    __except_handler StdException.isBadAlloc (workThrow .bad_alloc) 0 =
      .throws .bad_alloc 1 :=
  ⟨by decide, by decide,
   except_handler_bad_alloc_propagates StdException.isBadAlloc
     (workThrow .bad_alloc) 0 1 .bad_alloc (by decide) (by decide)⟩

/-- C9: when `work` returns `v`, the handler returns `v`, in the state `work` left, and
the call counter of `work` has advanced by exactly one; this holds in the build with
exceptions and in the build without. -/
theorem except_handler_returns_value {ε α σ : Type} (isBadAlloc : ε → Bool)
    (work : Callable ε α σ) (s s1 : σ) (v : α) (n : Nat)
    (hw : work s = .returns v s1) :
    __except_handler isBadAlloc (counted work) (s, n) = .returns v (s1, n + 1) ∧
      __except_handler_no_exceptions (counted work) (s, n) = .returns v (s1, n + 1) := by
  simp [__except_handler, __except_handler_no_exceptions, counted, hw]

/-- Witness of C9: a callable returning `42`. -/
theorem except_handler_returns_value_witness :
    work42 0 = .returns 42 7 ∧
    __except_handler StdException.isBadAlloc (counted work42) (0, 0) = .returns 42 (7, 1) ∧
    __except_handler_no_exceptions (counted work42) (0, 0) = .returns 42 (7, 1) :=
  ⟨by decide,
   except_handler_returns_value StdException.isBadAlloc work42 0 7 42 0 (by decide)⟩

/-! ## Properties of `__invoke_if` and `__invoke_if_not` -/

/-- C10: with the `true` tag `__invoke_if` calls `f` exactly once (the outcome is that of
one call of `f` with the value dropped, the call counter is one higher); with the `false`
tag it does not call `f` and leaves the state as it was; `__invoke_if_not` with a tag is
`__invoke_if` with the opposite tag. -/
theorem invoke_if_call_count {ε α σ : Type} (f : Callable ε α σ) (s : σ) (n : Nat) :
    (__invoke_if true (counted f) (s, n) =
      match f s with
      | .returns _ s1 => .returns () (s1, n + 1)
      | .throws e s1 => .throws e (s1, n + 1)
      | .terminated => .terminated) ∧
    __invoke_if false (counted f) (s, n) = .returns () (s, n) ∧
    (∀ tag : Bool, __invoke_if_not tag f = __invoke_if (!tag) f) := by
  refine ⟨?_, rfl, ?_⟩
  · simp only [__invoke_if, callDiscard, counted]
    cases f s <;> rfl
  · intro tag
    cases tag <;> rfl

/-! ## Properties of `__invoke_if_else` -/

/-- C11: with the `true` tag `__invoke_if_else` gives the outcome of one call of `f1` and
`f2` is not called (its call counter is unchanged); with the `false` tag it gives the
outcome of one call of `f2` and `f1` is not called. -/
theorem invoke_if_else_branch {ε α β σ : Type} (f1 : Callable ε α σ) (f2 : Callable ε β σ)
    (s : σ) (n1 n2 : Nat) :
    (__invoke_if_else true (countedFst f1) (countedSnd f2) (s, n1, n2) =
      match f1 s with
      | .returns v s1 => .returns v (s1, n1 + 1, n2)
      | .throws e s1 => .throws e (s1, n1 + 1, n2)
      | .terminated => .terminated) ∧
    (__invoke_if_else false (countedFst f1) (countedSnd f2) (s, n1, n2) =
      match f2 s with
      | .returns v s1 => .returns v (s1, n1, n2 + 1)
      | .throws e s1 => .throws e (s1, n1, n2 + 1)
      | .terminated => .terminated) ∧
    __invoke_if_else true f1 f2 = f1 ∧ __invoke_if_else false f1 f2 = f2 := by
  refine ⟨?_, ?_, rfl, rfl⟩
  · simp only [__invoke_if_else, countedFst]
    cases f1 s <;> rfl
  · simp only [__invoke_if_else, countedSnd]
    cases f2 s <;> rfl

/-! ## Properties of the predicate adaptors -/

/-- C12: `__reorder_pred(pred)(a, b)` is `pred(b, a)`, for arguments of any two types. -/
theorem reorder_pred_call {α β : Type} (pred : β → α → Bool) (a : α) (b : β) :
    (__reorder_pred.mk pred).call a b = pred b a := by
  rfl

/-- C13: `__equal_value_by_pred(v, pred)(x)` is `pred(x, v)`: the argument comes first and
the stored value second. -/
theorem equal_value_by_pred_call {α β : Type} (v : α) (pred : β → α → Bool) (x : β) :
    (__equal_value_by_pred.mk v pred).call x = pred x v := by
  rfl

/-- C14: for any operator `==`, `__equal_value(v)(x)` is `x == v` with `x` on the left,
`__not_equal_value(v)(x)` is `!(x == v)`, and so the second is the negation of the
first. -/
theorem equal_value_not_equal_value_call {α β : Type} (eq : β → α → Bool) (v : α) (x : β) :
    (__equal_value.mk v).call eq x = eq x v ∧
    (__not_equal_value.mk v).call eq x = (!(eq x v)) ∧
    (__not_equal_value.mk v).call eq x = (!((__equal_value.mk v).call eq x)) := by
  exact ⟨rfl, rfl, rfl⟩

/-- C15: `__no_op()(x)` is `x`, for a value of any type. -/
theorem no_op_call {α : Type} (x : α) : (__no_op.mk).call x = x := by
  rfl

/-! ## Algebraic properties of `__cmp_iterators_by_values` -/

/-- A strict weak ordering is asymmetric. -/
theorem StrictWeakOrdering.asymm {α : Type} {comp : α → α → Bool}
    (h : StrictWeakOrdering comp) (x y : α) (hxy : comp x y = true) : comp y x = false := by
  cases hyx : comp y x with
  | false => rfl
  | true =>
    have := h.trans x y x hxy hyx
    rw [h.irrefl x] at this
    exact Bool.noConfusion this

/-- The merge returns its first argument when that position is at least as good as the
second, and the second otherwise. -/
theorem cmp_iterators_by_values_eq_prefers {ι α : Type} [LinearOrder ι]
    {comp : α → α → Bool} (h : StrictWeakOrdering comp) (deref : ι → α) (a b : ι) :
    __cmp_iterators_by_values deref a b comp =
      if prefers deref comp a b = true then a else b := by
  unfold __cmp_iterators_by_values prefers
  rcases lt_trichotomy a b with hlt | heq | hgt
  · rw [if_pos hlt]
    cases hba : comp (deref b) (deref a) with
    | true =>
      have hab := h.asymm _ _ hba
      simp [hab]
    | false => simp [hlt.le]
  · subst heq
    simp [h.irrefl]
  · rw [if_neg (not_lt_of_gt hgt)]
    cases hab : comp (deref a) (deref b) with
    | true => simp
    | false => simp [not_le_of_gt hgt]

/-- Of two positions, one is at least as good as the other. -/
theorem prefers_total {ι α : Type} [LinearOrder ι] (deref : ι → α) (comp : α → α → Bool)
    (a b : ι) (hab : prefers deref comp a b = false) : prefers deref comp b a = true := by
  unfold prefers at *
  cases h1 : comp (deref a) (deref b) <;> cases h2 : comp (deref b) (deref a) <;>
    simp [h1, h2] at hab ⊢
  exact hab.le

/-- Two positions each at least as good as the other are the same position. -/
theorem prefers_antisymm {ι α : Type} [LinearOrder ι] {comp : α → α → Bool}
    (h : StrictWeakOrdering comp) (deref : ι → α) (a b : ι)
    (hab : prefers deref comp a b = true) (hba : prefers deref comp b a = true) : a = b := by
  unfold prefers at *
  cases h1 : comp (deref a) (deref b) with
  | true =>
    have h2 := h.asymm _ _ h1
    simp [h1, h2] at hba
  | false =>
    cases h2 : comp (deref b) (deref a) with
    | true => simp [h1, h2] at hab
    | false =>
      simp [h1, h2] at hab hba
      exact le_antisymm hab hba

/-- Being at least as good is transitive. -/
theorem prefers_trans {ι α : Type} [LinearOrder ι] {comp : α → α → Bool}
    (h : StrictWeakOrdering comp) (deref : ι → α) (a b c : ι)
    (hab : prefers deref comp a b = true) (hbc : prefers deref comp b c = true) :
    prefers deref comp a c = true := by
  unfold prefers at *
  cases h1 : comp (deref a) (deref b) with
  | true =>
    rcases h.neg_trans _ (deref c) _ h1 with hac | hcb
    · simp [hac]
    · have hbc0 := h.asymm _ _ hcb
      simp [hbc0, hcb] at hbc
  | false =>
    cases h2 : comp (deref b) (deref c) with
    | true =>
      rcases h.neg_trans _ (deref a) _ h2 with hba | hac
      · simp [h1, hba] at hab
      · simp [hac]
    | false =>
      simp [h1] at hab
      simp [h2] at hbc
      obtain ⟨hba, hle1⟩ := hab
      obtain ⟨hcb, hle2⟩ := hbc
      have heq := h.equiv_trans _ _ _ h1 hba h2 hcb
      simp [heq.1, heq.2, le_trans hle1 hle2]

/-- C16: associativity of the merge. For a strict weak ordering and positions `a`, `b`,
`c` in any relative order, equal or distinct, merging `a` with `b` and then with `c`
gives the same position as merging `a` with the merge of `b` and `c`. -/
theorem cmp_iterators_by_values_assoc {ι α : Type} [LinearOrder ι] (deref : ι → α)
    (comp : α → α → Bool) (hcomp : StrictWeakOrdering comp) (a b c : ι) :
    __cmp_iterators_by_values deref (__cmp_iterators_by_values deref a b comp) c comp =
      __cmp_iterators_by_values deref a (__cmp_iterators_by_values deref b c comp) comp := by
  rw [cmp_iterators_by_values_eq_prefers hcomp deref a b,
    cmp_iterators_by_values_eq_prefers hcomp deref b c]
  cases hab : prefers deref comp a b with
  | true =>
    cases hbc : prefers deref comp b c with
    | true =>
      have hac := prefers_trans hcomp deref a b c hab hbc
      simp [cmp_iterators_by_values_eq_prefers hcomp, hab, hac]
    | false =>
      simp
  | false =>
    cases hbc : prefers deref comp b c with
    | true =>
      simp [cmp_iterators_by_values_eq_prefers hcomp, hab, hbc]
    | false =>
      have hba := prefers_total deref comp a b hab
      have hcb := prefers_total deref comp b c hbc
      have hca := prefers_trans hcomp deref c b a hcb hba
      simp only [Bool.false_eq_true, if_false]
      rw [cmp_iterators_by_values_eq_prefers hcomp deref b c,
        cmp_iterators_by_values_eq_prefers hcomp deref a c]
      simp only [hbc, Bool.false_eq_true, if_false]
      cases hac : prefers deref comp a c with
      | true =>
        simp only [if_true]
        exact (prefers_antisymm hcomp deref a c hac hca).symm
      | false => simp

/-- Witness of C16 on the sequence `[10, 5, 20, 5, 7]` at the positions `3`, `4`, `1`. -/
theorem cmp_iterators_by_values_assoc_witness :
    StrictWeakOrdering less ∧
    __cmp_iterators_by_values (derefSeq [10, 5, 20, 5, 7])
        (__cmp_iterators_by_values (derefSeq [10, 5, 20, 5, 7]) 3 4 less) 1 less =
      __cmp_iterators_by_values (derefSeq [10, 5, 20, 5, 7]) 3
        (__cmp_iterators_by_values (derefSeq [10, 5, 20, 5, 7]) 4 1 less) less :=
  ⟨less_strictWeakOrdering,
   cmp_iterators_by_values_assoc (derefSeq [10, 5, 20, 5, 7]) less
     less_strictWeakOrdering 3 4 1⟩

/-- C17: for an asymmetric comparator, the value at the position the merge rejects is not
preferred to the value at the position it returns: if the result is `a` then
`comp (value at b) (value at a)` is false, and if the result is `b` then
`comp (value at a) (value at b)` is false. -/
theorem cmp_iterators_by_values_not_beaten {ι α : Type} [LT ι]
    [DecidableRel (fun (x y : ι) => x < y)] (deref : ι → α) (comp : α → α → Bool)
    (hasym : ∀ x y, comp x y = true → comp y x = false) (a b : ι) :
    (__cmp_iterators_by_values deref a b comp = a → comp (deref b) (deref a) = false) ∧
    (__cmp_iterators_by_values deref a b comp = b → comp (deref a) (deref b) = false) := by
  unfold __cmp_iterators_by_values
  by_cases hlt : a < b
  · rw [if_pos hlt]
    cases hba : comp (deref b) (deref a) with
    | true =>
      simp only [if_true]
      refine ⟨?_, fun _ => hasym _ _ hba⟩
      intro heq
      subst heq
      have := hasym _ _ hba
      rw [hba] at this
      exact Bool.noConfusion this
    | false =>
      simp only [Bool.false_eq_true, if_false]
      refine ⟨fun _ => trivial, ?_⟩
      intro heq
      subst heq
      exact hba
  · rw [if_neg hlt]
    cases hab : comp (deref a) (deref b) with
    | true =>
      simp only [if_true]
      refine ⟨fun _ => hasym _ _ hab, ?_⟩
      intro heq
      subst heq
      have := hasym _ _ hab
      rw [hab] at this
      exact Bool.noConfusion this
    | false =>
      simp only [Bool.false_eq_true, if_false]
      refine ⟨?_, fun _ => trivial⟩
      intro heq
      subst heq
      exact hab

/-- Witness of C17 on the sequence `[10, 20, 20, 5]` at the positions `0` and `3`. -/
theorem cmp_iterators_by_values_not_beaten_witness :
    (∀ x y, less x y = true → less y x = false) ∧
    (__cmp_iterators_by_values (derefSeq [10, 20, 20, 5]) 0 3 less = 0 →
      less (derefSeq [10, 20, 20, 5] 3) (derefSeq [10, 20, 20, 5] 0) = false) ∧
    (__cmp_iterators_by_values (derefSeq [10, 20, 20, 5]) 0 3 less = 3 →
      less (derefSeq [10, 20, 20, 5] 0) (derefSeq [10, 20, 20, 5] 3) = false) :=
  ⟨less_strictWeakOrdering.asymm,
   cmp_iterators_by_values_not_beaten (derefSeq [10, 20, 20, 5]) less
     less_strictWeakOrdering.asymm 0 3⟩

/-- C18: idempotence on equal positions. For every comparator, whatever it answers on
(value at `a`, value at `a`), merging `a` with itself takes the else branch and returns
`a`. -/
theorem cmp_iterators_by_values_idem {ι α : Type} [Preorder ι]
    [DecidableRel (fun (x y : ι) => x < y)] (deref : ι → α) (comp : α → α → Bool) (a : ι) :
    __cmp_iterators_by_values deref a a comp = a ∧
    __cmp_iterators_by_values deref a a comp =
      (if comp (deref a) (deref a) then a else a) := by
  unfold __cmp_iterators_by_values
  rw [if_neg (lt_irrefl a)]
  exact ⟨by split <;> rfl, rfl⟩

end internal
end pstl
